import Mathlib

/-!
Verification of the fact-whisper call pipeline against its specification.

This file gives a shallow embedding, in Lean, of the JavaScript modules of the
repository (src/audio.js, src/twilio.js, src/claims.js, and the server's
connection handler), and proves (or: refutes) the specification claims about them.

Modelling conventions:
* JS byte buffers are List Nat (each entry one byte), 16-bit PCM buffers are
  List Int (each entry one sample as read by an Int16Array view).
* JS numbers are modelled as exact rationals; Math.floor on non-negative
  rationals is Nat.floor, and Math.round x is the floor of x + 1/2
  (JS rounds half away from negative infinity).
* A JS Set of strings is a List String used with set semantics (insert only
  when absent, delete removes every copy).
* Asynchronous suspension points are made explicit: an operation with an await
  in its body is split into a "start" step (everything before the external
  call) and a "finish" step (everything after it), so that interleavings of
  concurrent invocations can be stated as sequences of steps.
-/

namespace FactWhisper

/-! ## src/claims.js — ClaimProcessor -/

/-- The mutable state of one ClaimProcessor instance (src/claims.js), plus an
instrumentation counter of how many external verification requests have been
issued (calls to messages.create inside verifyClaim). -/
structure ProcState where
  pendingVerifications : List String
  externalCalls : Nat
deriving Repr, DecidableEq

/-- The response of the external verification collaborator, as seen by
verifyClaim: either a list of text content blocks, or a thrown error. -/
inductive VerifyResponse where
  | ok (textBlocks : List String)
  | apiError
deriving Repr, DecidableEq

/-- Parsing of the collaborator response in verifyClaim (src/claims.js lines
115-126): concatenate all text blocks in order, trim, and if the text starts
with the marker CORRECTION: return the rest trimmed, else return null. -/
def verifyOutcome (resp : VerifyResponse) : Option String :=
  match resp with
  | .apiError => none
  | .ok blocks =>
    let text := (String.join blocks).trim
    if text.startsWith "CORRECTION:" then some ((text.drop 11).trim) else none

/-- The part of ClaimProcessor.verifyClaim (src/claims.js lines 85-88) that
runs synchronously before the external request: if the claim is already in
pendingVerifications, return immediately (the invocation resolves to null and
makes no external call; the returned Bool is false). Otherwise add the claim
to the pending set and issue the external verification request (Bool true). -/
def verifyClaimStart (st : ProcState) (claim : String) : ProcState × Bool :=
  if st.pendingVerifications.contains claim then (st, false)
  else ({ pendingVerifications := claim :: st.pendingVerifications,
          externalCalls := st.externalCalls + 1 }, true)

/-- The part of ClaimProcessor.verifyClaim (src/claims.js lines 115-132) that
runs when the external request settles, for every outcome (a parsed response
or a thrown error): the finally block removes the claim from
pendingVerifications, and the returned value is the parsed correction (null
on error or on a CORRECT verdict). -/
def verifyClaimFinish (st : ProcState) (claim : String) (resp : VerifyResponse) :
    ProcState × Option String :=
  ({ st with pendingVerifications := st.pendingVerifications.filter (fun c => c != claim) },
   verifyOutcome resp)

/-! ## src/audio.js — mu-law codec, resampling, attenuation -/

def MULAW_BIAS : Nat := 0x84

def MULAW_CLIP : Int := 32635

/-- The exponent-search loop of encodeMuLawSample (src/audio.js line 15):
exponent starts at 7 with expMask 0x4000, and both are shifted down while the
masked bit of the biased magnitude is clear and the exponent is positive. -/
def muLawExpLoop (sample : Nat) : Nat → Nat → Nat
  | 0, _ => 0
  | e + 1, expMask =>
    if sample &&& expMask == 0 then muLawExpLoop sample e (expMask >>> 1) else e + 1

/-- Encode a 16-bit linear PCM sample to an 8-bit mu-law byte
(src/audio.js lines 8-20).  For an int16 input, the JS expression
(sample >> 8) & 0x80 is 0x80 exactly when the sample is negative, so the sign
computation is modelled by a sign test; JS ~v & 0xFF on v <= 0xFF is v ^^^ 0xFF. -/
def encodeMuLawSample (sample : Int) : Nat :=
  let sign : Nat := if sample < 0 then 0x80 else 0
  let mag : Int := if sample < 0 then -sample else sample
  let mag : Int := if mag > MULAW_CLIP then MULAW_CLIP else mag
  let biased : Nat := (mag + (MULAW_BIAS : Int)).toNat
  let exponent : Nat := muLawExpLoop biased 7 0x4000
  let mantissa : Nat := (biased >>> (exponent + 3)) &&& 0x0F
  (sign ||| (exponent <<< 4) ||| mantissa) ^^^ 0xFF

/-- Decode an 8-bit mu-law byte to a 16-bit linear PCM sample
(src/audio.js lines 23-31).  JS ~b & 0xFF on an arbitrary integer is
(b & 0xFF) ^ 0xFF. -/
def decodeMuLawSample (muLawByte : Nat) : Int :=
  let u : Nat := (muLawByte &&& 0xFF) ^^^ 0xFF
  let sign : Nat := u &&& 0x80
  let exponent : Nat := (u >>> 4) &&& 0x07
  let mantissa : Nat := u &&& 0x0F
  let sample : Int := (((((mantissa <<< 3) + MULAW_BIAS) <<< exponent : Nat) : Int)) - (MULAW_BIAS : Int)
  if sign != 0 then -sample else sample

/-- encodeMuLaw (src/audio.js lines 34-44): one mu-law byte per sample. -/
def encodeMuLaw (pcm : List Int) : List Nat :=
  pcm.map encodeMuLawSample

/-- decodeMuLaw (src/audio.js lines 47-54): one 16-bit sample per byte. -/
def decodeMuLaw (mulaw : List Nat) : List Int :=
  mulaw.map decodeMuLawSample

/-- JS Math.round: round half toward positive infinity, i.e. floor (x + 1/2). -/
def jsRound (q : ℚ) : Int :=
  ⌊q + 1 / 2⌋

/-- Conversion applied when a JS number is stored into an Int16Array slot:
wrap to the two's-complement 16-bit range. -/
def toInt16 (z : Int) : Int :=
  (z + 32768) % 65536 - 32768

/-- resampleLinear (src/audio.js lines 57-81).  If the rates are equal the
input is returned unchanged; otherwise floor (length / (source/target))
output samples are produced, each by linear interpolation between the two
nearest source samples, degrading to the source sample itself (or 0 when out
of range, the JS expression samples[idx] || 0) when there is no successor. -/
def resampleLinear (samples : List Int) (sourceRate targetRate : Nat) : List Int :=
  if sourceRate = targetRate then samples
  else
    let ratio : ℚ := (sourceRate : ℚ) / (targetRate : ℚ)
    let outputLength : Nat := ⌊(samples.length : ℚ) / ratio⌋₊
    (List.range outputLength).map (fun (i : Nat) =>
      let srcIdx : ℚ := (i : ℚ) * ratio
      let idx : Nat := ⌊srcIdx⌋₊
      let frac : ℚ := srcIdx - (idx : ℚ)
      if idx + 1 < samples.length then
        toInt16 (jsRound ((samples.getD idx 0 : ℚ) * (1 - frac) + (samples.getD (idx + 1) 0 : ℚ) * frac))
      else
        samples.getD idx 0)

/-- convertToTelephonyAudio (audio.js, lines 85-88 of the src variant):
resample the PCM to 8 kHz and mu-law encode it. -/
def convertToTelephonyAudio (pcm : List Int) (sourceRate : Nat) : List Nat :=
  encodeMuLaw (resampleLinear pcm sourceRate 8000)

/-- attenuateAudio (src/audio.js lines 91-98): decode the mu-law buffer,
multiply every sample by the factor with Math.round (stored back into an
Int16Array slot), and re-encode. -/
def attenuateAudio (mulaw : List Nat) (factor : ℚ) : List Nat :=
  let pcm : List Int := decodeMuLaw mulaw
  encodeMuLaw (pcm.map (fun (s : Int) => toInt16 (jsRound ((s : ℚ) * factor))))

/-- Peak amplitude of the decoded form of a companded buffer: the maximum of
the absolute values of the decoded samples (0 for an empty buffer). -/
def decodedPeak (mulaw : List Nat) : Nat :=
  ((decodeMuLaw mulaw).map Int.natAbs).foldr max 0

/-! ## src/twilio.js — message parsing and outbound chunking -/

/-- JS truthiness of a string-or-null value: null/undefined and the empty
string are falsy. -/
def jsTruthyStr : Option String → Bool
  | none => false
  | some s => !(s == "")

/-- The fields of a parsed inbound JSON message that parseTwilioMessage
(src/twilio.js lines 77-106) reads: the event name (absent models a missing
or null field), the base64-decoded bytes of media.payload when a media object
with a payload is present, the top-level streamSid, and start.streamSid. -/
structure TwilioRaw where
  event : Option String
  mediaPayload : Option (List Nat)
  streamSid : Option String
  startStreamSid : Option String
deriving Repr, DecidableEq

/-- The result records of parseTwilioMessage: media/start/stop/connected as
recognized, passthrough for any other event value (carrying the type string
the function builds), and error when JSON parsing or payload decoding threw. -/
inductive ParsedMsg where
  | media (audio : List Nat) (streamSid : Option String)
  | start (streamSid : Option String)
  | stop
  | connected
  | passthrough (t : String)
  | error
deriving Repr, DecidableEq

/-- The type field of a parseTwilioMessage result. -/
def ParsedMsg.msgType : ParsedMsg → String
  | .media _ _ => "media"
  | .start _ => "start"
  | .stop => "stop"
  | .connected => "connected"
  | .passthrough t => t
  | .error => "error"

/-- parseTwilioMessage (src/twilio.js lines 77-106).  The argument none
models input that is not valid JSON (the catch branch).  A media event whose
media.payload is missing throws inside the try and lands in the catch branch
as well.  Any other event yields a record whose type is the JS expression
data.event || "unknown" (the event name itself, or "unknown" when the event
field is absent or the empty string). -/
def parseTwilioMessage (msg : Option TwilioRaw) : ParsedMsg :=
  match msg with
  | none => .error
  | some d =>
    if d.event = some "media" then
      match d.mediaPayload with
      | some audioBytes => .media audioBytes d.streamSid
      | none => .error
    else if d.event = some "start" then .start d.startStreamSid
    else if d.event = some "stop" then .stop
    else if d.event = some "connected" then .connected
    else
      .passthrough (match d.event with
        | some e => if e = "" then "unknown" else e
        | none => "unknown")

def CHUNK_SIZE : Nat := 160

/-- The chunking loop of sendAudioToTwilio (src/twilio.js line 113): slices
of CHUNK_SIZE bytes taken at offsets 0, 160, 320, ... until the buffer is
exhausted. -/
def chunkAudio (buf : List Nat) : List (List Nat) :=
  if h : buf = [] then []
  else buf.take CHUNK_SIZE :: chunkAudio (buf.drop CHUNK_SIZE)
termination_by buf.length
decreasing_by
  simp only [List.length_drop]
  exact Nat.sub_lt (List.length_pos.mpr h) (by norm_num [CHUNK_SIZE])

/-- One outbound WebSocket message of sendAudioToTwilio; the payload field
holds the bytes whose base64 encoding is sent on the wire. -/
structure OutMessage where
  event : String
  streamSid : String
  payload : List Nat
deriving Repr, DecidableEq

/-- sendAudioToTwilio (src/twilio.js lines 109-127): for each 160-byte chunk
of the buffer a media message is built, and it is sent only when the socket
readyState is OPEN (the open flag, constant for the duration of the call). -/
def sendAudioToTwilio (wsOpen : Bool) (mulawBuffer : List Nat) (streamSid : String) :
    List OutMessage :=
  (chunkAudio mulawBuffer).foldr
    (fun chunk sent =>
      let message : OutMessage := { event := "media", streamSid := streamSid, payload := chunk }
      if wsOpen then message :: sent else sent)
    []

/-! ## Server connection handler and per-call session (unnamed server module) -/

def CLAIM_COOLDOWN_MS : Nat := 60000

/-- One entry of the recentClaims registry: the claim text together with the
absolute time (ms) at which its setTimeout-scheduled deletion fires. -/
def cooldownActive (recentClaims : List (String × Nat)) (claim : String) (now : Nat) : Bool :=
  recentClaims.any (fun p => p.1 == claim && decide (now < p.2))

/-- The per-call cooldown registry state of one media-stream session. -/
structure CallSession where
  recentClaims : List (String × Nat)
deriving Repr, DecidableEq

/-- The dedup/cooldown prefix of processClaim (server module, lines 177-199),
taken at the instant the detection stage has produced its result: when a
claim was detected and it is not under an active cooldown, it is added to
recentClaims with expiry now + CLAIM_COOLDOWN_MS and its verification is
started (Bool true); otherwise no verification is started (Bool false). -/
def processClaimStep (s : CallSession) (now : Nat) (detected : Option String) :
    CallSession × Bool :=
  match detected with
  | none => (s, false)
  | some claim =>
    if cooldownActive s.recentClaims claim now then (s, false)
    else ({ recentClaims := (claim, now + CLAIM_COOLDOWN_MS) :: s.recentClaims }, true)

/-- The specification claim C5 as stated: only after a claim's verification
resolves (at some time tResolve at or after the verification started) is the
claim placed under a cooldown, so that while that window is unexpired the
same exact claim text is never re-verified. -/
def claimC5AsStated : Prop :=
  ∀ (s : CallSession) (c : String) (tDetect tResolve u : Nat),
    (processClaimStep s tDetect (some c)).2 = true →
    tDetect ≤ tResolve →
    tResolve ≤ u → u < tResolve + CLAIM_COOLDOWN_MS →
    (processClaimStep (processClaimStep s tDetect (some c)).1 u (some c)).2 = false

/-- The result of the WhisperTTS synthesize call as consumed by
whisperCorrection: a PCM buffer and its fixed sample rate (null on failure). -/
structure TTSResult where
  pcmBuffer : List Int
  sampleRate : Nat
deriving Repr, DecidableEq

/-- whisperCorrection (server module, lines 201-218): if synthesis failed,
nothing happens; otherwise the PCM is converted to telephony mu-law, the
whisper attenuation 0.5 is applied, and the audio is sent through the
socket only if, at this delivery instant, the socket is open and the stream
identifier is truthy. -/
def whisperCorrection (wsOpen : Bool) (sid : Option String) (ttsResult : Option TTSResult) :
    List OutMessage :=
  match ttsResult with
  | none => []
  | some r =>
    let mulawAudio := convertToTelephonyAudio r.pcmBuffer r.sampleRate
    let whisperAudio := attenuateAudio mulawAudio (1 / 2)
    if wsOpen && jsTruthyStr sid then sendAudioToTwilio wsOpen whisperAudio (sid.getD "")
    else []

/-- The per-connection session state mutated by the ws message handler
(server module, lines 221-242). -/
structure WsSessionState where
  streamSid : Option String
  deepgramInbox : List (List Nat)
  deepgramClosed : Bool
deriving Repr, DecidableEq

/-- The switch of the ws message handler (server module, lines 221-242):
connected does nothing; start latches the stream identifier; media latches it
defensively when still falsy and forwards the audio to the transcription
stream; stop closes the transcription stream; every other parsed type
(including passthrough and error records) falls through the switch with no
effect. -/
def handleWsMessage (s : WsSessionState) (p : ParsedMsg) : WsSessionState :=
  match p with
  | .connected => s
  | .start sid => { s with streamSid := sid }
  | .media audioBytes sid =>
    let s1 := if jsTruthyStr s.streamSid then s else { s with streamSid := sid }
    { s1 with deepgramInbox := s1.deepgramInbox ++ [audioBytes] }
  | .stop => { s with deepgramClosed := true }
  | .passthrough _ => s
  | .error => s

/-- Everything the connection handler allocates for an accepted connection
(server module, lines 145-253): the latched stream identifier, the created
transcription stream, the rolling transcript buffer, and the cooldown
registry. -/
structure AcceptedSession where
  ws : WsSessionState
  transcriptBuffer : List String
  session : CallSession
  deepgramCreated : Bool
deriving Repr, DecidableEq

/-- The outcome of the wss connection handler: either the socket was closed
immediately with a close code and reason, or a session was created. -/
inductive ConnOutcome where
  | rejected (closeCode : Nat) (reason : String)
  | accepted (init : AcceptedSession)
deriving Repr, DecidableEq

/-- The token gate of the wss connection handler (server module, lines
137-143): if the token query parameter (none models an absent parameter)
differs from the configured media secret, the socket is closed with policy
code 1008 and the handler returns before any session state is created;
otherwise the fresh session state is allocated. -/
def handleConnection (token : Option String) (mediaSecret : String) : ConnOutcome :=
  if token ≠ some mediaSecret then .rejected 1008 "Unauthorized"
  else .accepted
    { ws := { streamSid := none, deepgramInbox := [], deepgramClosed := false },
      transcriptBuffer := [],
      session := { recentClaims := [] },
      deepgramCreated := true }

/-- Round trip of one sample through the codec. -/
def muRoundTrip (x : Int) : Int :=
  decodeMuLawSample (encodeMuLawSample x)

/-- The specification claim C9 as stated: a valid-JSON inbound message whose
event name is not one of the four recognized types parses to a record whose
type field is the opaque string "unknown". -/
def claimC9AsStated : Prop :=
  ∀ d : TwilioRaw,
    d.event ∉ ([some "media", some "start", some "stop", some "connected"] :
      List (Option String)) →
    (parseTwilioMessage (some d)).msgType = "unknown"

/-! ## Helper lemmas: bit operations as division and remainder -/

theorem and_pow2_div_mod (x k : Nat) : x &&& 2 ^ k = x / 2 ^ k % 2 * 2 ^ k := by
  rw [Nat.and_two_pow, Nat.testBit_to_div_mod]
  by_cases h : x / 2 ^ k % 2 = 1
  · simp [h]
  · have h0 : x / 2 ^ k % 2 = 0 := by omega
    simp [h0]

theorem and_128_eq (x : Nat) : x &&& 128 = x / 128 % 2 * 128 := by
  have := and_pow2_div_mod x 7
  norm_num at this
  exact this

theorem and_15_eq (x : Nat) : x &&& 15 = x % 16 := by
  have := Nat.and_pow_two_sub_one_eq_mod x 4
  norm_num at this
  exact this

theorem and_7_eq (x : Nat) : x &&& 7 = x % 8 := by
  have := Nat.and_pow_two_sub_one_eq_mod x 3
  norm_num at this
  exact this

theorem and_255_eq (x : Nat) : x &&& 255 = x % 256 := by
  have := Nat.and_pow_two_sub_one_eq_mod x 8
  norm_num at this
  exact this

theorem xor255_roundtrip (u : Nat) (hu : u < 256) : ((u ^^^ 255) &&& 255) ^^^ 255 = u := by
  have h1 : u ^^^ 255 < 256 := by
    have : (255 : Nat) < 256 := by norm_num
    calc u ^^^ 255 < 2 ^ 8 := Nat.xor_lt_two_pow (by omega) (by omega)
    _ = 256 := by norm_num
  rw [and_255_eq, Nat.mod_eq_of_lt h1, Nat.xor_cancel_right]

/-! ## Helper lemmas: the exponent loop -/

theorem muLawExpLoop_le (b : Nat) : ∀ fuel mask, muLawExpLoop b fuel mask ≤ fuel := by
  intro fuel
  induction fuel with
  | zero => intro mask; simp [muLawExpLoop]
  | succ f ih =>
    intro mask
    rw [muLawExpLoop]
    split
    · exact Nat.le_succ_of_le (ih (mask >>> 1))
    · exact Nat.le_refl _

/-- Full unfolding of the seven iterations of the exponent loop. -/
theorem muLawExpLoop_unfold (b : Nat) : muLawExpLoop b 7 0x4000 =
    if b &&& 16384 == 0 then
      if b &&& 8192 == 0 then
        if b &&& 4096 == 0 then
          if b &&& 2048 == 0 then
            if b &&& 1024 == 0 then
              if b &&& 512 == 0 then
                if b &&& 256 == 0 then 0 else 1
              else 2
            else 3
          else 4
        else 5
      else 6
    else 7 := rfl

set_option maxHeartbeats 1600000 in
/-- In the segment 128 * 2^e <= b < 256 * 2^e (for e <= 7, with b >= 132 in
the lowest segment) the exponent loop of the encoder returns e. -/
theorem muLawExpLoop_eq (e : Nat) (he : e ≤ 7) (b : Nat) (hb0 : 132 ≤ b)
    (hlo : 128 * 2 ^ e ≤ b) (hhi : b < 256 * 2 ^ e) :
    muLawExpLoop b 7 0x4000 = e := by
  have h14 : b &&& 16384 = b / 16384 % 2 * 16384 := by
    have := and_pow2_div_mod b 14; norm_num at this; exact this
  have h13 : b &&& 8192 = b / 8192 % 2 * 8192 := by
    have := and_pow2_div_mod b 13; norm_num at this; exact this
  have h12 : b &&& 4096 = b / 4096 % 2 * 4096 := by
    have := and_pow2_div_mod b 12; norm_num at this; exact this
  have h11 : b &&& 2048 = b / 2048 % 2 * 2048 := by
    have := and_pow2_div_mod b 11; norm_num at this; exact this
  have h10 : b &&& 1024 = b / 1024 % 2 * 1024 := by
    have := and_pow2_div_mod b 10; norm_num at this; exact this
  have h9 : b &&& 512 = b / 512 % 2 * 512 := by
    have := and_pow2_div_mod b 9; norm_num at this; exact this
  have h8 : b &&& 256 = b / 256 % 2 * 256 := by
    have := and_pow2_div_mod b 8; norm_num at this; exact this
  rw [muLawExpLoop_unfold]
  simp only [h14, h13, h12, h11, h10, h9, h8, beq_iff_eq, Nat.mul_eq_zero]
  interval_cases e <;> (norm_num at hlo hhi ⊢) <;> split_ifs <;> omega

/-! ## Helper lemmas: shapes of decoded and encoded bytes -/

theorem decode_byte_pos (u : Nat) (hu : u < 128) :
    decodeMuLawSample (u ^^^ 255) =
      (((u % 16 * 8 + 132) * 2 ^ (u / 16 % 8) : Nat) : Int) - 132 := by
  simp only [decodeMuLawSample, MULAW_BIAS]
  rw [xor255_roundtrip u (by omega)]
  have hs : u &&& 128 = 0 := by rw [and_128_eq]; omega
  rw [hs]
  simp only [bne_self_eq_false, Bool.false_eq_true, if_false, and_15_eq, and_7_eq,
    Nat.shiftRight_eq_div_pow, Nat.shiftLeft_eq]
  norm_num

theorem decode_byte_neg (u : Nat) (hu0 : 128 ≤ u) (hu : u < 256) :
    decodeMuLawSample (u ^^^ 255) =
      -((((u % 16 * 8 + 132) * 2 ^ (u / 16 % 8) : Nat) : Int) - 132) := by
  simp only [decodeMuLawSample, MULAW_BIAS]
  rw [xor255_roundtrip u (by omega)]
  have hs : u &&& 128 = 128 := by rw [and_128_eq]; omega
  rw [hs]
  simp only [bne_iff_ne, ne_eq, OfNat.ofNat_ne_zero, not_false_eq_true, if_true, and_15_eq,
    and_7_eq, Nat.shiftRight_eq_div_pow, Nat.shiftLeft_eq]
  norm_num

theorem encode_pos_eq (x : Int) (h0 : 0 ≤ x) (b : Nat)
    (hb : (b : Int) = (if x > MULAW_CLIP then MULAW_CLIP else x) + 132) :
    encodeMuLawSample x =
      (16 * muLawExpLoop b 7 0x4000 + b / 2 ^ (muLawExpLoop b 7 0x4000 + 3) % 16) ^^^ 255 := by
  have hE : muLawExpLoop b 7 0x4000 ≤ 7 := muLawExpLoop_le b 7 0x4000
  have hM : b / 2 ^ (muLawExpLoop b 7 0x4000 + 3) % 16 < 16 := Nat.mod_lt _ (by norm_num)
  simp only [encodeMuLawSample, MULAW_BIAS]
  push_cast
  have hnneg : ¬ x < 0 := by omega
  rw [if_neg hnneg, if_neg hnneg]
  have htn : ((if x > MULAW_CLIP then MULAW_CLIP else x) + 0x84).toNat = b := by
    simp only [MULAW_CLIP] at hb ⊢
    split at hb <;> split <;> omega
  rw [htn]
  have hor1 : (0 : Nat) ||| (muLawExpLoop b 7 0x4000 <<< 4) = 16 * muLawExpLoop b 7 0x4000 := by
    rw [Nat.zero_or, Nat.shiftLeft_eq]
    ring
  rw [and_15_eq, Nat.shiftRight_eq_div_pow, hor1]
  have hor2 : 16 * muLawExpLoop b 7 0x4000 ||| b / 2 ^ (muLawExpLoop b 7 0x4000 + 3) % 16
      = 16 * muLawExpLoop b 7 0x4000 + b / 2 ^ (muLawExpLoop b 7 0x4000 + 3) % 16 := by
    have := Nat.mul_add_lt_is_or (b := b / 2 ^ (muLawExpLoop b 7 0x4000 + 3) % 16) (i := 4)
      (by norm_num; omega) (muLawExpLoop b 7 0x4000)
    norm_num at this
    omega
  rw [hor2]

theorem encode_neg_eq (x : Int) (h0 : 0 < x) (b : Nat)
    (hb : (b : Int) = (if x > MULAW_CLIP then MULAW_CLIP else x) + 132) :
    encodeMuLawSample (-x) =
      (16 * (8 + muLawExpLoop b 7 0x4000) + b / 2 ^ (muLawExpLoop b 7 0x4000 + 3) % 16)
        ^^^ 255 := by
  have hE : muLawExpLoop b 7 0x4000 ≤ 7 := muLawExpLoop_le b 7 0x4000
  have hM : b / 2 ^ (muLawExpLoop b 7 0x4000 + 3) % 16 < 16 := Nat.mod_lt _ (by norm_num)
  simp only [encodeMuLawSample, MULAW_BIAS]
  push_cast
  have hneg : -x < 0 := by omega
  rw [if_pos hneg, if_pos hneg, neg_neg]
  have htn : ((if x > MULAW_CLIP then MULAW_CLIP else x) + 0x84).toNat = b := by
    simp only [MULAW_CLIP] at hb ⊢
    split at hb <;> split <;> omega
  rw [htn]
  have hor1 : (128 : Nat) ||| (muLawExpLoop b 7 0x4000 <<< 4)
      = 16 * (8 + muLawExpLoop b 7 0x4000) := by
    rw [Nat.shiftLeft_eq]
    rw [show (128 : Nat) = 2 ^ 7 * 1 from by norm_num]
    rw [← Nat.mul_add_lt_is_or (by omega) 1]
    ring
  rw [and_15_eq, Nat.shiftRight_eq_div_pow, hor1]
  have hor2 : 16 * (8 + muLawExpLoop b 7 0x4000) ||| b / 2 ^ (muLawExpLoop b 7 0x4000 + 3) % 16
      = 16 * (8 + muLawExpLoop b 7 0x4000) + b / 2 ^ (muLawExpLoop b 7 0x4000 + 3) % 16 := by
    rw [show (16 : Nat) * (8 + muLawExpLoop b 7 0x4000)
        = 2 ^ 4 * (8 + muLawExpLoop b 7 0x4000) from by ring]
    rw [← Nat.mul_add_lt_is_or (by omega) (8 + muLawExpLoop b 7 0x4000)]
  rw [hor2]

theorem segment_exists (b : Nat) (h1 : 132 ≤ b) (h2 : b < 32768) :
    ∃ e, e ≤ 7 ∧ 128 * 2 ^ e ≤ b ∧ b < 256 * 2 ^ e := by
  rcases Nat.lt_or_ge b 256 with h | h
  · exact ⟨0, by norm_num <;> omega, by norm_num <;> omega, by norm_num <;> omega⟩
  rcases Nat.lt_or_ge b 512 with h3 | h3
  · exact ⟨1, by norm_num <;> omega, by norm_num <;> omega, by norm_num <;> omega⟩
  rcases Nat.lt_or_ge b 1024 with h4 | h4
  · exact ⟨2, by norm_num <;> omega, by norm_num <;> omega, by norm_num <;> omega⟩
  rcases Nat.lt_or_ge b 2048 with h5 | h5
  · exact ⟨3, by norm_num <;> omega, by norm_num <;> omega, by norm_num <;> omega⟩
  rcases Nat.lt_or_ge b 4096 with h6 | h6
  · exact ⟨4, by norm_num <;> omega, by norm_num <;> omega, by norm_num <;> omega⟩
  rcases Nat.lt_or_ge b 8192 with h7 | h7
  · exact ⟨5, by norm_num <;> omega, by norm_num <;> omega, by norm_num <;> omega⟩
  rcases Nat.lt_or_ge b 16384 with h8 | h8
  · exact ⟨6, by norm_num <;> omega, by norm_num <;> omega, by norm_num <;> omega⟩
  exact ⟨7, by norm_num <;> omega, by norm_num <;> omega, by norm_num <;> omega⟩

/-- In the segment 128 * 2^e <= x + 132 < 256 * 2^e the codec round trip
floors x + 132 to a multiple of the segment step 8 * 2^e and adds half a
step. -/
theorem muRoundTrip_pos_formula (x : Int) (h0 : 0 ≤ x) (hx : x ≤ 32635) (e : Nat) (he : e ≤ 7)
    (Q : Nat) (hQ : Q = 2 ^ e)
    (hlo : (128 * Q : Int) ≤ x + 132) (hhi : x + 132 < (256 * Q : Int)) :
    muRoundTrip x = x - (x + 132) % (8 * Q) + 4 * Q := by
  have hQpos : 0 < Q := by rw [hQ]; exact Nat.two_pow_pos e
  have hbpos : (0 : Int) ≤ x + 132 := by omega
  obtain ⟨b, hbx⟩ : ∃ b : Nat, (b : Int) = x + 132 := ⟨(x + 132).toNat, by omega⟩
  have hb_clip : (b : Int) = (if x > MULAW_CLIP then MULAW_CLIP else x) + 132 := by
    rw [if_neg (by simp only [MULAW_CLIP]; omega)]
    exact hbx
  have hb132 : 132 ≤ b := by omega
  have hloN : 128 * Q ≤ b := by omega
  have hhiN : b < 256 * Q := by omega
  have hE : muLawExpLoop b 7 0x4000 = e :=
    muLawExpLoop_eq e he b hb132 (by omega) (by omega)
  have henc := encode_pos_eq x h0 b hb_clip
  rw [hE] at henc
  have hMlt : b / 2 ^ (e + 3) % 16 < 16 := Nat.mod_lt _ (by norm_num)
  have hu : 16 * e + b / 2 ^ (e + 3) % 16 < 128 := by omega
  have hKQ : 2 ^ (e + 3) = 8 * Q := by rw [hQ, pow_add]; ring
  have hq16 : 16 ≤ b / 2 ^ (e + 3) := by
    rw [Nat.le_div_iff_mul_le (Nat.two_pow_pos _), hKQ]; omega
  have hq32 : b / 2 ^ (e + 3) < 32 := by
    rw [Nat.div_lt_iff_lt_mul (Nat.two_pow_pos _), hKQ]; omega
  have hqM : b / 2 ^ (e + 3) = b / 2 ^ (e + 3) % 16 + 16 := by omega
  unfold muRoundTrip
  rw [henc, decode_byte_pos _ hu]
  obtain ⟨M, hM⟩ : ∃ M, b / 2 ^ (e + 3) = M + 16 := ⟨b / 2 ^ (e + 3) % 16, hqM⟩
  have hMeq : b / 2 ^ (e + 3) % 16 = M := by omega
  rw [hMeq]
  have h1 : (16 * e + M) % 16 = M := by omega
  have h2 : (16 * e + M) / 16 % 8 = e := by omega
  rw [h1, h2]
  have hdm := Nat.div_add_mod b (2 ^ (e + 3))
  rw [hM] at hdm
  have key : (M * 8 + 132) * 2 ^ e + b % 2 ^ (e + 3) = b + 4 * 2 ^ e := by
    conv_rhs => rw [← hdm]
    rw [pow_add]
    ring
  have hmodQ : b % (8 * Q) = b % 2 ^ (e + 3) := by rw [hKQ]
  have hmodcast : (x + 132) % (8 * (Q : Int)) = ((b % (8 * Q) : Nat) : Int) := by
    rw [← hbx]
    push_cast
    rfl
  rw [hmodQ] at hmodcast
  rw [hmodcast]
  have keyInt : (((M * 8 + 132) * 2 ^ e : Nat) : Int)
      = (b : Int) + 4 * ((2 ^ e : Nat) : Int) - ((b % 2 ^ (e + 3) : Nat) : Int) := by
    have := congrArg (Nat.cast : Nat → Int) key
    push_cast at this ⊢
    linarith
  have hQc : ((Q : Nat) : Int) = ((2 ^ e : Nat) : Int) := by rw [hQ]
  omega

/-- The round trip is odd: negating the input negates the output. -/
theorem muRoundTrip_neg (x : Int) (h0 : 0 ≤ x) : muRoundTrip (-x) = - muRoundTrip x := by
  rcases eq_or_lt_of_le h0 with h | h
  · rw [← h]
    have hz : muRoundTrip 0 = 0 := by decide
    rw [neg_zero, hz]
    norm_num
  obtain ⟨b, hb⟩ : ∃ b : Nat, (b : Int) = (if x > MULAW_CLIP then MULAW_CLIP else x) + 132 := by
    refine ⟨((if x > MULAW_CLIP then MULAW_CLIP else x) + 132).toNat, ?_⟩
    simp only [MULAW_CLIP]
    split <;> omega
  have hE7 : muLawExpLoop b 7 0x4000 ≤ 7 := muLawExpLoop_le b 7 0x4000
  have hMlt : b / 2 ^ (muLawExpLoop b 7 0x4000 + 3) % 16 < 16 := Nat.mod_lt _ (by norm_num)
  have hencp := encode_pos_eq x h0 b hb
  have hencn := encode_neg_eq x h b hb
  unfold muRoundTrip
  rw [hencp, hencn]
  have hup : 16 * muLawExpLoop b 7 0x4000 + b / 2 ^ (muLawExpLoop b 7 0x4000 + 3) % 16 < 128 := by
    omega
  have hun0 : 128 ≤ 16 * (8 + muLawExpLoop b 7 0x4000)
      + b / 2 ^ (muLawExpLoop b 7 0x4000 + 3) % 16 := by omega
  have hun1 : 16 * (8 + muLawExpLoop b 7 0x4000)
      + b / 2 ^ (muLawExpLoop b 7 0x4000 + 3) % 16 < 256 := by omega
  rw [decode_byte_pos _ hup, decode_byte_neg _ hun0 hun1]
  have e1 : (16 * (8 + muLawExpLoop b 7 0x4000) + b / 2 ^ (muLawExpLoop b 7 0x4000 + 3) % 16) % 16
      = (16 * muLawExpLoop b 7 0x4000 + b / 2 ^ (muLawExpLoop b 7 0x4000 + 3) % 16) % 16 := by
    omega
  have e2 : (16 * (8 + muLawExpLoop b 7 0x4000) + b / 2 ^ (muLawExpLoop b 7 0x4000 + 3) % 16) / 16
        % 8
      = (16 * muLawExpLoop b 7 0x4000 + b / 2 ^ (muLawExpLoop b 7 0x4000 + 3) % 16) / 16 % 8 := by
    omega
  rw [e1, e2]

/-- Inputs above the clip threshold encode exactly like the threshold. -/
theorem encode_clip (x : Int) (hx : MULAW_CLIP < x) :
    encodeMuLawSample x = encodeMuLawSample 32635 := by
  have h1 := encode_pos_eq x (by simp only [MULAW_CLIP] at hx; omega) 32767
    (by simp only [MULAW_CLIP] at hx ⊢; rw [if_pos (by omega)]; norm_num)
  have h2 := encode_pos_eq 32635 (by norm_num) 32767
    (by simp only [MULAW_CLIP]; norm_num)
  rw [h1, h2]

/-- Segment package for the round trip of a non-negative sample below the
clip threshold: the segment width Q, its bounds, the closed formula, and the
derived amplitude bounds. -/
theorem muRoundTrip_seg (x : Int) (h0 : 0 ≤ x) (hx : x ≤ 32635) :
    ∃ Q : Nat, (∃ e : Nat, e ≤ 7 ∧ Q = 2 ^ e) ∧ 0 < Q ∧ Q ≤ 128 ∧
      (128 * Q : Int) ≤ x + 132 ∧ (x + 132 : Int) < 256 * Q ∧
      muRoundTrip x = x - (x + 132) % (8 * Q) + 4 * Q ∧
      (132 * Q : Int) - 132 ≤ muRoundTrip x ∧ muRoundTrip x ≤ (252 * Q : Int) - 132 ∧
      (muRoundTrip x - x).natAbs ≤ 4 * Q := by
  obtain ⟨e, he, hloN, hhiN⟩ := segment_exists (x + 132).toNat (by omega) (by omega)
  refine ⟨2 ^ e, ⟨e, he, rfl⟩, Nat.two_pow_pos e, ?_, ?_, ?_, ?_, ?_, ?_, ?_⟩
  · calc (2 : Nat) ^ e ≤ 2 ^ 7 := Nat.pow_le_pow_right (by norm_num) he
    _ = 128 := by norm_num
  · omega
  · omega
  · exact muRoundTrip_pos_formula x h0 hx e he (2 ^ e) rfl (by omega) (by omega)
  all_goals {
    have hQ2 : ((2 ^ e : Nat) : Int) ≤ 128 := by
      have : (2 : Nat) ^ e ≤ 128 := by
        calc (2 : Nat) ^ e ≤ 2 ^ 7 := Nat.pow_le_pow_right (by norm_num) he
        _ = 128 := by norm_num
      omega
    have hQpos : (0 : Int) < ((2 ^ e : Nat) : Int) := by
      have := Nat.two_pow_pos e
      omega
    have hf := muRoundTrip_pos_formula x h0 hx e he (2 ^ e) rfl (by omega) (by omega)
    have hstep : (0 : Int) < 8 * ((2 ^ e : Nat) : Int) := by omega
    have hdm := Int.ediv_add_emod (x + 132) (8 * ((2 ^ e : Nat) : Int))
    have hr0 : 0 ≤ (x + 132) % (8 * ((2 ^ e : Nat) : Int)) := Int.emod_nonneg _ (by omega)
    have hr1 : (x + 132) % (8 * ((2 ^ e : Nat) : Int)) < 8 * ((2 ^ e : Nat) : Int) :=
      Int.emod_lt_of_pos _ hstep
    have hd16 : 16 ≤ (x + 132) / (8 * ((2 ^ e : Nat) : Int)) := by
      rw [Int.le_ediv_iff_mul_le hstep]
      omega
    have hd31 : (x + 132) / (8 * ((2 ^ e : Nat) : Int)) ≤ 31 := by
      have h32 : (x + 132) / (8 * ((2 ^ e : Nat) : Int)) < 32 := by
        rw [Int.ediv_lt_iff_lt_mul hstep]
        omega
      omega
    have hmul16 : 8 * ((2 ^ e : Nat) : Int) * 16
        ≤ 8 * ((2 ^ e : Nat) : Int) * ((x + 132) / (8 * ((2 ^ e : Nat) : Int))) :=
      mul_le_mul_of_nonneg_left hd16 (by omega)
    have hmul31 : 8 * ((2 ^ e : Nat) : Int) * ((x + 132) / (8 * ((2 ^ e : Nat) : Int)))
        ≤ 8 * ((2 ^ e : Nat) : Int) * 31 :=
      mul_le_mul_of_nonneg_left hd31 (by omega)
    rw [hf]
    omega
  }

/-- The round trip of a decoder output value is the value itself. -/
theorem muRoundTrip_decode_fixed (M E : Nat) (hM : M < 16) (hE : E ≤ 7) :
    muRoundTrip ((((8 * M + 132) * 2 ^ E : Nat) : Int) - 132)
      = (((8 * M + 132) * 2 ^ E : Nat) : Int) - 132 := by
  have hQ2 : (2 : Nat) ^ E ≤ 128 := by
    calc (2 : Nat) ^ E ≤ 2 ^ 7 := Nat.pow_le_pow_right (by norm_num) hE
    _ = 128 := by norm_num
  have hQpos : 0 < (2 : Nat) ^ E := Nat.two_pow_pos E
  have hv1 : ((8 * M + 132) * 2 ^ E : Nat) ≤ 252 * 2 ^ E :=
    Nat.mul_le_mul_right _ (by omega)
  have hv2 : (252 * 2 ^ E : Nat) ≤ 252 * 128 := Nat.mul_le_mul_left _ hQ2
  have hv : ((8 * M + 132) * 2 ^ E : Nat) ≤ 32256 := by omega
  have hvlo : (132 * 2 ^ E : Nat) ≤ (8 * M + 132) * 2 ^ E :=
    Nat.mul_le_mul_right _ (by omega)
  have hvhi : ((8 * M + 132) * 2 ^ E : Nat) < 256 * 2 ^ E :=
    Nat.mul_lt_mul_of_lt_of_le (by omega) (Nat.le_refl _) hQpos
  have hf := muRoundTrip_pos_formula ((((8 * M + 132) * 2 ^ E : Nat) : Int) - 132)
    (by omega) (by omega) E hE (2 ^ E) rfl (by omega) (by omega)
  rw [hf]
  have hmod : ((((8 * M + 132) * 2 ^ E : Nat) : Int) - 132 + 132) % (8 * ((2 ^ E : Nat) : Int))
      = 4 * ((2 ^ E : Nat) : Int) := by
    have hsplit : ((((8 * M + 132) * 2 ^ E : Nat) : Int))
        = (8 * ((2 ^ E : Nat) : Int)) * (M + 16) + 4 * ((2 ^ E : Nat) : Int) := by
      push_cast
      ring
    rw [sub_add_cancel, hsplit, add_comm, Int.add_mul_emod_self_left]
    exact Int.emod_eq_of_lt (by omega) (by omega)
  rw [hmod]
  ring

/-- The round trip never exceeds the top decoder output 32124 and is
non-negative for non-negative inputs. -/
theorem muRoundTrip_range (x : Int) (h0 : 0 ≤ x) :
    0 ≤ muRoundTrip x ∧ muRoundTrip x ≤ 32124 := by
  rcases le_or_lt x 32635 with h | h
  · obtain ⟨Q, ⟨e, he, hQ⟩, hQpos, hQ128, hlo, hhi, hf, hlow, hhigh, hb⟩ :=
      muRoundTrip_seg x h0 h
    constructor <;> omega
  · have hclip := encode_clip x (by simp only [MULAW_CLIP]; omega)
    have h32 : muRoundTrip 32635 = 32124 := by decide
    unfold muRoundTrip at h32 ⊢
    rw [hclip, h32]
    norm_num

/-- The round trip is monotone on non-negative samples. -/
theorem muRoundTrip_mono (a b : Int) (h0 : 0 ≤ a) (hab : a ≤ b) :
    muRoundTrip a ≤ muRoundTrip b := by
  rcases le_or_lt b 32635 with hb | hb
  · obtain ⟨Qa, ⟨ea, hea, hQa⟩, hQapos, hQa128, hloa, hhia, hfa, hlowa, hhigha, hba⟩ :=
      muRoundTrip_seg a h0 (by omega)
    obtain ⟨Qb, ⟨eb, heb, hQb⟩, hQbpos, hQb128, hlob, hhib, hfb, hlowb, hhighb, hbb⟩ :=
      muRoundTrip_seg b (by omega) hb
    have hQaQb : Qa ≤ Qb := by
      have h1 : (Qa : Int) < 2 * Qb := by omega
      have h2 : ea < eb + 1 := by
        by_contra hcon
        have h3 : eb + 1 ≤ ea := by omega
        have h4 : (2 : Nat) ^ (eb + 1) ≤ 2 ^ ea := Nat.pow_le_pow_right (by norm_num) h3
        rw [hQa, hQb] at h1
        have h5 : ((2 : Nat) ^ (eb + 1) : Int) ≤ ((2 : Nat) ^ ea : Int) := by exact_mod_cast h4
        push_cast [pow_succ] at h5
        omega
      have h6 : (2 : Nat) ^ ea ≤ 2 ^ eb := Nat.pow_le_pow_right (by norm_num) (by omega)
      rw [hQa, hQb]
      exact h6
    rcases Nat.eq_or_lt_of_le hQaQb with hQeq | hQlt
    · subst hQeq
      rw [hfa, hfb]
      have hstep : (0 : Int) < 8 * (Qa : Int) := by omega
      have hda := Int.ediv_add_emod (a + 132) (8 * (Qa : Int))
      have hdb := Int.ediv_add_emod (b + 132) (8 * (Qa : Int))
      have hdive : (a + 132) / (8 * (Qa : Int)) ≤ (b + 132) / (8 * (Qa : Int)) :=
        Int.ediv_le_ediv hstep (by omega)
      have hmul : 8 * (Qa : Int) * ((a + 132) / (8 * (Qa : Int)))
          ≤ 8 * (Qa : Int) * ((b + 132) / (8 * (Qa : Int))) :=
        mul_le_mul_of_nonneg_left hdive (by omega)
      have hra : 0 ≤ (a + 132) % (8 * (Qa : Int)) := Int.emod_nonneg _ (by omega)
      have hrb : 0 ≤ (b + 132) % (8 * (Qa : Int)) := Int.emod_nonneg _ (by omega)
      have hra2 : (a + 132) % (8 * (Qa : Int)) < 8 * (Qa : Int) := Int.emod_lt_of_pos _ hstep
      have hrb2 : (b + 132) % (8 * (Qa : Int)) < 8 * (Qa : Int) := Int.emod_lt_of_pos _ hstep
      omega
    · have h2Q : 2 * Qa ≤ Qb := by
        rw [hQa] at hQlt ⊢
        rw [hQb] at hQlt ⊢
        have : ea < eb := by
          by_contra hcon
          have : eb ≤ ea := by omega
          have := Nat.pow_le_pow_right (show 1 ≤ 2 by norm_num) this
          omega
        calc 2 * 2 ^ ea = 2 ^ (ea + 1) := by rw [pow_succ]; ring
        _ ≤ 2 ^ eb := Nat.pow_le_pow_right (by norm_num) (by omega)
      omega
  · have hclip := encode_clip b (by simp only [MULAW_CLIP]; omega)
    have h32 : muRoundTrip 32635 = 32124 := by decide
    have hbtop : muRoundTrip b = 32124 := by
      unfold muRoundTrip at h32 ⊢
      rw [hclip, h32]
    rw [hbtop]
    exact (muRoundTrip_range a h0).2

/-- Every decoder output is, up to sign, (8M + 132) * 2^E - 132 with
M < 16 and E <= 7. -/
theorem decode_shape (b : Nat) :
    ∃ E M : Nat, E ≤ 7 ∧ M < 16 ∧
      (decodeMuLawSample b = (((8 * M + 132) * 2 ^ E : Nat) : Int) - 132 ∨
       decodeMuLawSample b = -((((8 * M + 132) * 2 ^ E : Nat) : Int) - 132)) := by
  have hmm : b % 256 % 256 = b % 256 := Nat.mod_eq_of_lt (Nat.mod_lt _ (by norm_num))
  have hult : (b % 256) ^^^ 255 < 256 := by
    have h1 : b % 256 < 2 ^ 8 := by
      have := Nat.mod_lt b (show 0 < 256 by norm_num)
      omega
    have h2 : (255 : Nat) < 2 ^ 8 := by norm_num
    have := Nat.xor_lt_two_pow h1 h2
    omega
  have hbu : decodeMuLawSample b = decodeMuLawSample (((b % 256) ^^^ 255) ^^^ 255) := by
    rw [Nat.xor_cancel_right]
    simp only [decodeMuLawSample, and_255_eq, hmm]
  have hcomm : ((b % 256) ^^^ 255) % 16 * 8 = 8 * (((b % 256) ^^^ 255) % 16) :=
    Nat.mul_comm _ _
  refine ⟨((b % 256) ^^^ 255) / 16 % 8, ((b % 256) ^^^ 255) % 16, ?_, ?_, ?_⟩
  · have := Nat.mod_lt (((b % 256) ^^^ 255) / 16) (show 0 < 8 by norm_num)
    omega
  · exact Nat.mod_lt _ (by norm_num)
  rcases Nat.lt_or_ge ((b % 256) ^^^ 255) 128 with h | h
  · left
    rw [hbu, decode_byte_pos _ h, hcomm]
  · right
    rw [hbu, decode_byte_neg _ h hult, hcomm]

/-- The magnitude of every decoder output is at most 32124, and the round
trip fixes it. -/
theorem decode_val_props (b : Nat) :
    (decodeMuLawSample b).natAbs ≤ 32124 ∧
    muRoundTrip ((decodeMuLawSample b).natAbs : Int) = ((decodeMuLawSample b).natAbs : Int) := by
  obtain ⟨E, M, hE, hM, hshape⟩ := decode_shape b
  have hQ2 : (2 : Nat) ^ E ≤ 128 := by
    calc (2 : Nat) ^ E ≤ 2 ^ 7 := Nat.pow_le_pow_right (by norm_num) hE
    _ = 128 := by norm_num
  have hQpos : 0 < (2 : Nat) ^ E := Nat.two_pow_pos E
  have hv1 : ((8 * M + 132) * 2 ^ E : Nat) ≤ 252 * 2 ^ E :=
    Nat.mul_le_mul_right _ (by omega)
  have hv2 : (252 * 2 ^ E : Nat) ≤ 252 * 128 := Nat.mul_le_mul_left _ hQ2
  have hvlo : (132 * 2 ^ E : Nat) ≤ (8 * M + 132) * 2 ^ E :=
    Nat.mul_le_mul_right _ (by omega)
  have habs : ((decodeMuLawSample b).natAbs : Int)
      = (((8 * M + 132) * 2 ^ E : Nat) : Int) - 132 := by
    rcases hshape with h | h <;> rw [h] <;> omega
  rw [habs]
  refine ⟨by omega, muRoundTrip_decode_fixed M E hM hE⟩

/-- JS Math.round of a sample scaled by a factor in the unit interval never
increases the magnitude. -/
theorem jsRound_mul_abs_le (v : Int) (f : ℚ) (h0 : 0 ≤ f) (h1 : f ≤ 1) :
    (jsRound ((v : ℚ) * f)).natAbs ≤ v.natAbs := by
  unfold jsRound
  have hhalf : ⌊(1 / 2 : ℚ)⌋ = 0 := by norm_num
  rcases le_or_lt 0 v with hv | hv
  · have hvq : (0 : ℚ) ≤ (v : ℚ) := by exact_mod_cast hv
    have hub : (v : ℚ) * f ≤ (v : ℚ) := by
      calc (v : ℚ) * f ≤ (v : ℚ) * 1 := mul_le_mul_of_nonneg_left h1 hvq
      _ = (v : ℚ) := mul_one _
    have hlb : (0 : ℚ) ≤ (v : ℚ) * f := mul_nonneg hvq h0
    have hfu : ⌊(v : ℚ) * f + 1 / 2⌋ ≤ v := by
      calc ⌊(v : ℚ) * f + 1 / 2⌋ ≤ ⌊(v : ℚ) + 1 / 2⌋ :=
        Int.floor_le_floor (add_le_add_right hub _)
      _ = v + ⌊(1 / 2 : ℚ)⌋ := Int.floor_int_add v _
      _ = v := by rw [hhalf]; ring
    have hfl : (0 : Int) ≤ ⌊(v : ℚ) * f + 1 / 2⌋ := by
      have hmono : ⌊(0 : ℚ) + 1 / 2⌋ ≤ ⌊(v : ℚ) * f + 1 / 2⌋ :=
        Int.floor_le_floor (add_le_add_right hlb _)
      have hz : ⌊(0 : ℚ) + 1 / 2⌋ = 0 := by norm_num
      omega
    omega
  · have hvq : (v : ℚ) ≤ 0 := by exact_mod_cast le_of_lt hv
    have hlb : (v : ℚ) ≤ (v : ℚ) * f := by
      calc (v : ℚ) = (v : ℚ) * 1 := (mul_one _).symm
      _ ≤ (v : ℚ) * f := mul_le_mul_of_nonpos_left h1 hvq
    have hub : (v : ℚ) * f ≤ 0 := mul_nonpos_iff.mpr (Or.inr ⟨hvq, h0⟩)
    have hfl : v ≤ ⌊(v : ℚ) * f + 1 / 2⌋ := by
      have : ⌊(v : ℚ) + 1 / 2⌋ ≤ ⌊(v : ℚ) * f + 1 / 2⌋ :=
        Int.floor_le_floor (add_le_add_right hlb _)
      have heq : ⌊(v : ℚ) + 1 / 2⌋ = v := by
        rw [Int.floor_int_add v _, hhalf]
        ring
      omega
    have hfu : ⌊(v : ℚ) * f + 1 / 2⌋ ≤ 0 := by
      have hmono : ⌊(v : ℚ) * f + 1 / 2⌋ ≤ ⌊(0 : ℚ) + 1 / 2⌋ :=
        Int.floor_le_floor (add_le_add_right hub _)
      have hz : ⌊(0 : ℚ) + 1 / 2⌋ = 0 := by norm_num
      omega
    omega

/-- Storing an in-range value into an Int16Array slot keeps it unchanged. -/
theorem toInt16_eq (z : Int) (h1 : -32768 ≤ z) (h2 : z ≤ 32767) : toInt16 z = z := by
  unfold toInt16
  omega

/-- The round trip commutes with the absolute value. -/
theorem muRoundTrip_abs (s : Int) :
    (muRoundTrip s).natAbs = (muRoundTrip ((s.natAbs : Nat) : Int)).natAbs := by
  rcases le_or_lt 0 s with hs | hs
  · have : ((s.natAbs : Nat) : Int) = s := by omega
    rw [this]
  · have hneg : s = -((s.natAbs : Nat) : Int) := by omega
    rw [hneg, muRoundTrip_neg _ (by omega)]
    simp

/-- One attenuated-and-reencoded sample never exceeds in magnitude any bound
that dominates the original decoded sample. -/
theorem atten_sample_le (bv : Nat) (f : ℚ) (h0 : 0 ≤ f) (h1 : f ≤ 1) (P : Nat)
    (hP : (decodeMuLawSample bv).natAbs ≤ P) :
    (muRoundTrip (toInt16 (jsRound ((decodeMuLawSample bv : ℚ) * f)))).natAbs ≤ P := by
  obtain ⟨hv32, hfix⟩ := decode_val_props bv
  have hround := jsRound_mul_abs_le (decodeMuLawSample bv) f h0 h1
  have ht16 : toInt16 (jsRound ((decodeMuLawSample bv : ℚ) * f))
      = jsRound ((decodeMuLawSample bv : ℚ) * f) := toInt16_eq _ (by omega) (by omega)
  rw [ht16, muRoundTrip_abs]
  have hmono : muRoundTrip (((jsRound ((decodeMuLawSample bv : ℚ) * f)).natAbs : Nat) : Int)
      ≤ muRoundTrip (((decodeMuLawSample bv).natAbs : Nat) : Int) :=
    muRoundTrip_mono _ _ (by omega) (by omega)
  have hnn : 0 ≤ muRoundTrip (((jsRound ((decodeMuLawSample bv : ℚ) * f)).natAbs : Nat) : Int) :=
    (muRoundTrip_range _ (by omega)).1
  rw [hfix] at hmono
  omega

/-- Global quantization bound of the round trip on the signed 16-bit range
(the worst case, 644, is attained at -32768). -/
theorem muRoundTrip_bound_644 (x : Int) (h1 : -32768 ≤ x) (h2 : x ≤ 32767) :
    (muRoundTrip x - x).natAbs ≤ 644 := by
  have hpos : ∀ y : Int, 0 ≤ y → y ≤ 32768 → (muRoundTrip y - y).natAbs ≤ 644 := by
    intro y hy0 hy1
    rcases le_or_lt y 32635 with hy | hy
    · obtain ⟨Q, ⟨e, he, hQ⟩, hQpos, hQ128, hlo, hhi, hf, hlow, hhigh, hb⟩ :=
        muRoundTrip_seg y hy0 hy
      omega
    · have hclip := encode_clip y (by simp only [MULAW_CLIP]; omega)
      have h32 : muRoundTrip 32635 = 32124 := by decide
      have htop : muRoundTrip y = 32124 := by
        unfold muRoundTrip at h32 ⊢
        rw [hclip, h32]
      rw [htop]
      omega
  rcases le_or_lt 0 x with hx | hx
  · exact hpos x hx (by omega)
  · have hy := hpos (-x) (by omega) (by omega)
    have hodd : muRoundTrip x = - muRoundTrip (-x) := by
      have := muRoundTrip_neg (-x) (by omega)
      rw [neg_neg] at this
      omega
    rw [hodd]
    omega

/-- Near zero (the lowest segment) the round-trip error is at most 4. -/
theorem muRoundTrip_bound_small (x : Int) (h1 : -123 ≤ x) (h2 : x ≤ 123) :
    (muRoundTrip x - x).natAbs ≤ 4 := by
  have hpos : ∀ y : Int, 0 ≤ y → y ≤ 123 → (muRoundTrip y - y).natAbs ≤ 4 := by
    intro y hy0 hy1
    obtain ⟨Q, ⟨e, he, hQ⟩, hQpos, hQ128, hlo, hhi, hf, hlow, hhigh, hb⟩ :=
      muRoundTrip_seg y hy0 (by omega)
    have hQ1 : Q = 1 := by omega
    omega
  rcases le_or_lt 0 x with hx | hx
  · exact hpos x hx h2
  · have hy := hpos (-x) (by omega) (by omega)
    have hodd : muRoundTrip x = - muRoundTrip (-x) := by
      have := muRoundTrip_neg (-x) (by omega)
      rw [neg_neg] at this
      omega
    rw [hodd]
    omega

/-- The round trip never strictly flips the sign: non-negative inputs decode
to non-negative samples and non-positive inputs to non-positive samples. -/
theorem muRoundTrip_sign (x : Int) :
    (0 ≤ x → 0 ≤ muRoundTrip x) ∧ (x ≤ 0 → muRoundTrip x ≤ 0) := by
  constructor
  · intro h
    exact (muRoundTrip_range x h).1
  · intro h
    have hodd : muRoundTrip x = - muRoundTrip (-x) := by
      have := muRoundTrip_neg (-x) (by omega)
      rw [neg_neg] at this
      omega
    have := (muRoundTrip_range (-x) (by omega)).1
    omega

/-! ## Helper lemmas: list-level codec facts -/

theorem decodeMuLaw_encodeMuLaw (l : List Int) :
    decodeMuLaw (encodeMuLaw l) = l.map muRoundTrip := by
  unfold decodeMuLaw encodeMuLaw
  rw [List.map_map]
  rfl

theorem attenuateAudio_length (buf : List Nat) (f : ℚ) :
    (attenuateAudio buf f).length = buf.length := by
  unfold attenuateAudio encodeMuLaw decodeMuLaw
  rw [List.length_map, List.length_map, List.length_map]

theorem foldr_max_le (l : List Nat) (P : Nat) (h : ∀ x ∈ l, x ≤ P) :
    l.foldr max 0 ≤ P := by
  induction l with
  | nil => exact Nat.zero_le P
  | cons x xs ih =>
    simp only [List.foldr_cons]
    have hx := h x (List.mem_cons_self x xs)
    have hxs := ih (fun y hy => h y (List.mem_cons_of_mem x hy))
    omega

theorem le_foldr_max (l : List Nat) (x : Nat) (h : x ∈ l) :
    x ≤ l.foldr max 0 := by
  induction l with
  | nil => cases h
  | cons y ys ih =>
    simp only [List.foldr_cons]
    rcases List.mem_cons.mp h with rfl | hmem
    · omega
    · have := ih hmem
      omega

/-- The decoded output of the attenuation never exceeds the decoded peak of
the input. -/
theorem decodedPeak_attenuate_le (buf : List Nat) (f : ℚ) (h0 : 0 ≤ f) (h1 : f ≤ 1) :
    decodedPeak (attenuateAudio buf f) ≤ decodedPeak buf := by
  have hrw : (decodeMuLaw (attenuateAudio buf f)).map Int.natAbs
      = buf.map (fun bv =>
          (muRoundTrip (toInt16 (jsRound ((decodeMuLawSample bv : ℚ) * f)))).natAbs) := by
    show (decodeMuLaw (encodeMuLaw ((decodeMuLaw buf).map
        (fun (s : Int) => toInt16 (jsRound ((s : ℚ) * f)))))).map Int.natAbs = _
    rw [decodeMuLaw_encodeMuLaw]
    unfold decodeMuLaw
    rw [List.map_map, List.map_map, List.map_map]
    rfl
  unfold decodedPeak
  rw [hrw]
  apply foldr_max_le
  intro y hy
  rw [List.mem_map] at hy
  obtain ⟨bv, hbv, rfl⟩ := hy
  apply atten_sample_le bv f h0 h1
  apply le_foldr_max
  unfold decodeMuLaw
  exact List.mem_map_of_mem _ (List.mem_map_of_mem _ hbv)

/-! ## Helper lemmas: chunking -/

theorem chunkAudio_eq (buf : List Nat) :
    chunkAudio buf = if buf = [] then []
      else buf.take CHUNK_SIZE :: chunkAudio (buf.drop CHUNK_SIZE) := by
  rw [chunkAudio]
  split <;> rfl

theorem chunkAudio_nil_iff (buf : List Nat) : chunkAudio buf = [] ↔ buf = [] := by
  rw [chunkAudio_eq]
  split <;> simp_all

theorem chunkAudio_flatten (buf : List Nat) : (chunkAudio buf).flatten = buf := by
  by_cases h : buf = []
  · subst h
    rw [chunkAudio_eq]
    simp
  · rw [chunkAudio_eq, if_neg h]
    have ih := chunkAudio_flatten (buf.drop CHUNK_SIZE)
    rw [List.flatten_cons, ih]
    exact List.take_append_drop _ _
termination_by buf.length
decreasing_by
  simp only [List.length_drop]
  exact Nat.sub_lt (List.length_pos.mpr h) (by norm_num [CHUNK_SIZE])

theorem chunkAudio_length (buf : List Nat) :
    (chunkAudio buf).length = (buf.length + (CHUNK_SIZE - 1)) / CHUNK_SIZE := by
  by_cases h : buf = []
  · subst h
    rw [chunkAudio_eq]
    simp [CHUNK_SIZE]
  · rw [chunkAudio_eq, if_neg h]
    have ih := chunkAudio_length (buf.drop CHUNK_SIZE)
    have hpos : 0 < buf.length := List.length_pos.mpr h
    rw [List.length_cons, ih]
    simp only [List.length_drop, CHUNK_SIZE]
    omega
termination_by buf.length
decreasing_by
  simp only [List.length_drop]
  exact Nat.sub_lt (List.length_pos.mpr h) (by norm_num [CHUNK_SIZE])

theorem chunkAudio_sizes (buf : List Nat) (i : Nat) :
    (i + 1 < (chunkAudio buf).length → ((chunkAudio buf).getD i []).length = CHUNK_SIZE) ∧
    (i + 1 = (chunkAudio buf).length →
      ((chunkAudio buf).getD i []).length = buf.length - CHUNK_SIZE * i) := by
  by_cases h : buf = []
  · subst h
    rw [chunkAudio_eq]
    simp
  · rw [chunkAudio_eq, if_neg h]
    have hpos : 0 < buf.length := List.length_pos.mpr h
    match i with
    | 0 =>
      constructor
      · intro hlt
        simp only [List.length_cons] at hlt
        have hrest : chunkAudio (buf.drop CHUNK_SIZE) ≠ [] := by
          intro hc
          rw [hc] at hlt
          simp at hlt
        have hdrop : buf.drop CHUNK_SIZE ≠ [] := fun hc =>
          hrest ((chunkAudio_nil_iff _).mpr hc)
        have hgt : CHUNK_SIZE < buf.length := by
          by_contra hcon
          exact hdrop (List.drop_eq_nil_of_le (by omega))
        simp only [List.getD_cons_zero, List.length_take]
        omega
      · intro heq
        simp only [List.length_cons, Nat.add_right_cancel_iff] at heq
        have hrest : chunkAudio (buf.drop CHUNK_SIZE) = [] := List.length_eq_zero.mp heq.symm
        have hdrop : buf.drop CHUNK_SIZE = [] := (chunkAudio_nil_iff _).mp hrest
        have hlen : (buf.drop CHUNK_SIZE).length = 0 := by rw [hdrop]; rfl
        rw [List.length_drop] at hlen
        simp only [List.getD_cons_zero, List.length_take]
        omega
    | k + 1 =>
      have ih := chunkAudio_sizes (buf.drop CHUNK_SIZE) k
      rw [List.length_drop] at ih
      constructor
      · intro hlt
        simp only [List.length_cons] at hlt
        simp only [List.getD_cons_succ]
        exact ih.1 (by omega)
      · intro heq
        simp only [List.length_cons, Nat.add_right_cancel_iff] at heq
        simp only [List.getD_cons_succ]
        rw [ih.2 heq]
        have hk1 : 0 < (chunkAudio (buf.drop CHUNK_SIZE)).length := by omega
        have hrest : buf.drop CHUNK_SIZE ≠ [] := by
          intro hc
          rw [(chunkAudio_nil_iff _).mpr hc] at hk1
          simp at hk1
        have hgt : CHUNK_SIZE < buf.length := by
          by_contra hcon
          exact hrest (List.drop_eq_nil_of_le (by omega))
        simp only [CHUNK_SIZE]
        omega
termination_by buf.length
decreasing_by
  all_goals simp only [List.length_drop]
  all_goals exact Nat.sub_lt (List.length_pos.mpr h) (by norm_num [CHUNK_SIZE])

/-! ## Helper lemmas: resampling -/

theorem resampleLinear_self (samples : List Int) (r : Nat) :
    resampleLinear samples r r = samples := by
  simp [resampleLinear]

theorem resampleLinear_length (samples : List Int) (s t : Nat) (hs : 0 < s) (ht : 0 < t)
    (hne : s ≠ t) :
    (resampleLinear samples s t).length = samples.length * t / s := by
  unfold resampleLinear
  rw [if_neg hne]
  simp only [List.length_map, List.length_range]
  rw [div_div_eq_mul_div]
  rw [show ((samples.length : ℚ) * (t : ℚ)) = ((samples.length * t : Nat) : ℚ) from by
    push_cast
    ring]
  rw [Nat.floor_div_nat, Nat.floor_natCast]

/-! ## Helper lemmas: strings and sets -/

theorem contains_filter_ne (l : List String) (c : String) :
    (l.filter (fun x => x != c)).contains c = false := by
  induction l with
  | nil => rfl
  | cons x xs ih =>
    by_cases hx : x = c
    · subst hx
      simp [List.filter, ih]
    · have hb : (x != c) = true := by simp [bne_iff_ne, hx]
      simp [List.filter, hb, List.contains_cons, ih, hx, Ne.symm hx]

/-- With the socket open, sendAudioToTwilio sends one media message per
chunk. -/
theorem sendAudio_open_eq (buf : List Nat) (sid : String) :
    sendAudioToTwilio true buf sid
      = (chunkAudio buf).map (fun c => ({ event := "media", streamSid := sid, payload := c }
          : OutMessage)) := by
  unfold sendAudioToTwilio
  induction chunkAudio buf with
  | nil => rfl
  | cons c cs ih =>
    rw [List.foldr_cons, ih]
    rfl

/-! ## Claim theorems -/

/-- C1: at most one verification per distinct claim text is in flight at a
time: a verifyClaim invocation whose claim is already pending returns null
immediately, leaving the state (and the external-call count) untouched; and
of two back-to-back invocations with the same fresh claim text, the first
issues exactly one external verification request and the second is refused. -/
theorem claim_C1_verify_dedup (c : String) :
    (∀ st : ProcState, st.pendingVerifications.contains c = true →
        verifyClaimStart st c = (st, false)) ∧
    (∀ st : ProcState, st.pendingVerifications.contains c = false →
        (verifyClaimStart st c).2 = true ∧
        (verifyClaimStart st c).1.externalCalls = st.externalCalls + 1 ∧
        verifyClaimStart (verifyClaimStart st c).1 c = ((verifyClaimStart st c).1, false)) := by
  constructor
  · intro st h
    unfold verifyClaimStart
    rw [h]
    rfl
  · intro st h
    have hstep : verifyClaimStart st c
        = ({ pendingVerifications := c :: st.pendingVerifications,
             externalCalls := st.externalCalls + 1 }, true) := by
      unfold verifyClaimStart
      rw [h]
      rfl
    refine ⟨by rw [hstep], by rw [hstep], ?_⟩
    rw [hstep]
    unfold verifyClaimStart
    rw [show (c :: st.pendingVerifications).contains c = true from by
      simp [List.contains_cons]]
    rfl

theorem claim_C1_verify_dedup_witness :
    verifyClaimStart ⟨["the moon is made of cheese"], 5⟩ "the moon is made of cheese"
      = (⟨["the moon is made of cheese"], 5⟩, false) :=
  (claim_C1_verify_dedup "the moon is made of cheese").1
    ⟨["the moon is made of cheese"], 5⟩ (by decide)

/-- C2: on every exit path of verifyClaim — a correction, no correction, or
a collaborator error — the claim is removed from the pending set, and a
subsequent verifyClaim with the same text is not blocked: it proceeds and
issues a fresh external verification request. -/
theorem claim_C2_verify_cleanup (st : ProcState) (c : String) (resp : VerifyResponse) :
    (verifyClaimFinish st c resp).1.pendingVerifications.contains c = false ∧
    (verifyClaimStart (verifyClaimFinish st c resp).1 c).2 = true ∧
    (verifyClaimStart (verifyClaimFinish st c resp).1 c).1.externalCalls
      = (verifyClaimFinish st c resp).1.externalCalls + 1 := by
  have hclean : (verifyClaimFinish st c resp).1.pendingVerifications.contains c = false :=
    contains_filter_ne _ c
  refine ⟨hclean, ?_, ?_⟩ <;> unfold verifyClaimStart <;> rw [hclean] <;> rfl

/-- C3: with the destination socket open, sendAudioToTwilio emits
ceil (length / 160) media messages; every payload except the last is exactly
160 bytes, the last holds the remainder (160 when the length is a positive
multiple of 160), their concatenation is the input buffer, and an empty
buffer yields no messages. -/
theorem claim_C3_chunking (buf : List Nat) (sid : String) :
    (sendAudioToTwilio true buf sid).length = (buf.length + (CHUNK_SIZE - 1)) / CHUNK_SIZE ∧
    ((sendAudioToTwilio true buf sid).map OutMessage.payload).flatten = buf ∧
    (∀ i, i + 1 < (sendAudioToTwilio true buf sid).length →
      (((sendAudioToTwilio true buf sid).map OutMessage.payload).getD i []).length
        = CHUNK_SIZE) ∧
    (buf ≠ [] →
      (((sendAudioToTwilio true buf sid).map OutMessage.payload).getD
          ((sendAudioToTwilio true buf sid).length - 1) []).length
        = if buf.length % CHUNK_SIZE = 0 then CHUNK_SIZE else buf.length % CHUNK_SIZE) ∧
    (buf = [] → sendAudioToTwilio true buf sid = []) ∧
    (∀ m ∈ sendAudioToTwilio true buf sid, m.event = "media" ∧ m.streamSid = sid) := by
  have hpayload : (sendAudioToTwilio true buf sid).map OutMessage.payload = chunkAudio buf := by
    rw [sendAudio_open_eq]
    induction chunkAudio buf with
    | nil => rfl
    | cons x xs ih =>
      simp only [List.map_cons]
      rw [ih]
  have hlen : (sendAudioToTwilio true buf sid).length = (chunkAudio buf).length := by
    rw [sendAudio_open_eq, List.length_map]
  refine ⟨?_, ?_, ?_, ?_, ?_, ?_⟩
  · rw [hlen, chunkAudio_length]
  · rw [hpayload, chunkAudio_flatten]
  · intro i hi
    rw [hpayload]
    rw [hlen] at hi
    exact (chunkAudio_sizes buf i).1 hi
  · intro hne
    rw [hpayload, hlen]
    have hcne : chunkAudio buf ≠ [] := fun hc => hne ((chunkAudio_nil_iff buf).mp hc)
    have hcpos : 0 < (chunkAudio buf).length := List.length_pos.mpr hcne
    have hlast := (chunkAudio_sizes buf ((chunkAudio buf).length - 1)).2 (by omega)
    rw [hlast, chunkAudio_length]
    have hbpos : 0 < buf.length := List.length_pos.mpr hne
    simp only [CHUNK_SIZE] at *
    by_cases hmod : buf.length % 160 = 0 <;> simp only [hmod, if_true, if_false] <;> omega
  · intro he
    subst he
    rw [sendAudio_open_eq, show chunkAudio ([] : List Nat) = [] from by
      rw [chunkAudio_eq]; simp]
    rfl
  · intro m hm
    rw [sendAudio_open_eq, List.mem_map] at hm
    obtain ⟨c, hc, rfl⟩ := hm
    exact ⟨rfl, rfl⟩

theorem claim_C3_chunking_witness :
    (((sendAudioToTwilio true [7] "MZx").map OutMessage.payload).getD
        ((sendAudioToTwilio true [7] "MZx").length - 1) []).length
      = if ([7] : List Nat).length % CHUNK_SIZE = 0 then CHUNK_SIZE
        else ([7] : List Nat).length % CHUNK_SIZE :=
  (claim_C3_chunking [7] "MZx").2.2.2.1 (by decide)

/-- C4: a resolved correction is delivered only when, at delivery time, the
socket is open and a truthy stream identifier is known; in every other case
(including a failed synthesis) it is silently discarded, yielding no
outbound messages and no error. -/
theorem claim_C4_delivery_guard (wsOpen : Bool) (sid : Option String)
    (tts : Option TTSResult) :
    ((wsOpen && jsTruthyStr sid) = false → whisperCorrection wsOpen sid tts = []) ∧
    (tts = none → whisperCorrection wsOpen sid tts = []) := by
  constructor
  · intro h
    cases tts with
    | none => rfl
    | some r => simp [whisperCorrection, h]
  · intro h
    subst h
    rfl

theorem claim_C4_delivery_guard_witness :
    whisperCorrection false (some "MZstream") (some ⟨[1000, 1000, 1000], 22050⟩) = [] :=
  (claim_C4_delivery_guard false (some "MZstream") (some ⟨[1000, 1000, 1000], 22050⟩)).1
    (by decide)

/-- C5 counterexample: the claim as stated places the cooldown window after
the verification resolves, but the code starts the window at detection time;
a verification lasting the whole window (detected at 0, resolved at 60000)
leaves the claim free to be re-verified at the moment of resolution, inside
the claimed window. -/
theorem claim_C5_cooldown_counterexample : ¬ claimC5AsStated := by
  intro h
  have hstart : (processClaimStep ⟨[]⟩ 0 (some "X")).2 = true := by decide
  have hcontra := h ⟨[]⟩ "X" 0 60000 60000 hstart (by norm_num) (le_refl _)
    (by norm_num [CLAIM_COOLDOWN_MS])
  have hval : (processClaimStep (processClaimStep ⟨[]⟩ 0 (some "X")).1 60000 (some "X")).2
      = true := by decide
  rw [hcontra] at hval
  cases hval

/-- C5 amended: the cooldown is placed at detection time, when the claim
passes the dedup check and before its verification starts: the entry
(claim, detectionTime + CLAIM_COOLDOWN_MS) is recorded, entries are never
removed by later processClaim steps, and while the window from detection has
not expired the same exact claim text is never re-verified. -/
theorem claim_C5_cooldown_amended :
    (∀ (s : CallSession) (now : Nat) (d : Option String),
        ∃ pre, (processClaimStep s now d).1.recentClaims = pre ++ s.recentClaims) ∧
    (∀ (s : CallSession) (c : String) (t : Nat),
        (processClaimStep s t (some c)).2 = true →
        (c, t + CLAIM_COOLDOWN_MS) ∈ (processClaimStep s t (some c)).1.recentClaims) ∧
    (∀ (s : CallSession) (c : String) (exp u : Nat),
        (c, exp) ∈ s.recentClaims → u < exp →
        (processClaimStep s u (some c)).2 = false) := by
  refine ⟨?_, ?_, ?_⟩
  · intro s now d
    cases d with
    | none => exact ⟨[], rfl⟩
    | some c =>
      by_cases hcd : cooldownActive s.recentClaims c now
      · exact ⟨[], by simp [processClaimStep, hcd]⟩
      · exact ⟨[(c, now + CLAIM_COOLDOWN_MS)], by simp [processClaimStep, hcd]⟩
  · intro s c t hstep
    by_cases hcd : cooldownActive s.recentClaims c t
    · simp [processClaimStep, hcd] at hstep
    · simp [processClaimStep, hcd]
  · intro s c exp u hmem hu
    have hactive : cooldownActive s.recentClaims c u = true := by
      unfold cooldownActive
      rw [List.any_eq_true]
      exact ⟨(c, exp), hmem, by simp [hu]⟩
    simp [processClaimStep, hactive]

theorem claim_C5_cooldown_amended_witness :
    (processClaimStep ⟨[("X", 60000)]⟩ 10 (some "X")).2 = false :=
  claim_C5_cooldown_amended.2.2 ⟨[("X", 60000)]⟩ "X" 60000 10 (by decide) (by decide)

/-- C6: for positive rates, resampleLinear returns
floor (inputLength * targetRate / sourceRate) samples when the rates differ,
and returns the input unchanged when they are equal. -/
theorem claim_C6_resample (samples : List Int) (s t : Nat) (hs : 0 < s) (ht : 0 < t) :
    (s ≠ t → (resampleLinear samples s t).length = samples.length * t / s) ∧
    (s = t → resampleLinear samples s t = samples) := by
  constructor
  · intro hne
    exact resampleLinear_length samples s t hs ht hne
  · intro heq
    rw [heq]
    exact resampleLinear_self samples t

theorem claim_C6_resample_witness :
    (2 ≠ 1 → (resampleLinear [3, 5, 7] 2 1).length = ([3, 5, 7] : List Int).length * 1 / 2) ∧
    (2 = 1 → resampleLinear [3, 5, 7] 2 1 = [3, 5, 7]) :=
  claim_C6_resample [3, 5, 7] 2 1 (by norm_num) (by norm_num)

/-- C7 counterexample: the round trip does not always preserve the sign of
the input: the in-range sample 1 decodes to 0 after encoding, whose sign 0
differs from the sign of 1. -/
theorem claim_C7_roundtrip_counterexample :
    decodeMuLawSample (encodeMuLawSample 1) = 0 ∧
    ¬ Int.sign (decodeMuLawSample (encodeMuLawSample 1)) = Int.sign 1 := by
  constructor
  · decide
  · decide

/-- C7 amended: for every in-range signed 16-bit sample the round-trip error
is below a fixed quantization bound (at most 644 overall, tighter — at most
4 — near zero), and the decoded result never takes the strictly opposite
sign: non-negative samples decode to non-negative values and non-positive
samples to non-positive values (the decoded value may be 0 for small nonzero
inputs, so exact sign equality fails). -/
theorem claim_C7_roundtrip_amended (x : Int) (h1 : -32768 ≤ x) (h2 : x ≤ 32767) :
    (decodeMuLawSample (encodeMuLawSample x) - x).natAbs ≤ 644 ∧
    (-123 ≤ x → x ≤ 123 → (decodeMuLawSample (encodeMuLawSample x) - x).natAbs ≤ 4) ∧
    (0 ≤ x → 0 ≤ decodeMuLawSample (encodeMuLawSample x)) ∧
    (x ≤ 0 → decodeMuLawSample (encodeMuLawSample x) ≤ 0) := by
  refine ⟨muRoundTrip_bound_644 x h1 h2, ?_, ?_, ?_⟩
  · intro ha hb
    exact muRoundTrip_bound_small x ha hb
  · intro h
    exact (muRoundTrip_sign x).1 h
  · intro h
    exact (muRoundTrip_sign x).2 h

theorem claim_C7_roundtrip_amended_witness :
    (decodeMuLawSample (encodeMuLawSample 1000) - 1000).natAbs ≤ 644 ∧
    (-123 ≤ (1000 : Int) → (1000 : Int) ≤ 123 →
      (decodeMuLawSample (encodeMuLawSample 1000) - 1000).natAbs ≤ 4) ∧
    (0 ≤ (1000 : Int) → 0 ≤ decodeMuLawSample (encodeMuLawSample 1000)) ∧
    ((1000 : Int) ≤ 0 → decodeMuLawSample (encodeMuLawSample 1000) ≤ 0) :=
  claim_C7_roundtrip_amended 1000 (by norm_num) (by norm_num)

/-- C8 counterexample: attenuation by a factor strictly between 0 and 1 does
not always strictly decrease the decoded peak: for the single-byte buffer
[0x80] (decoded peak 32124) and factor 999/1000, quantization maps the
attenuated sample back to the same codeword, so the peak is unchanged. -/
theorem claim_C8_attenuate_counterexample :
    (0 : ℚ) < 999 / 1000 ∧ (999 / 1000 : ℚ) < 1 ∧
    ¬ decodedPeak (attenuateAudio [128] (999 / 1000)) < decodedPeak [128] := by
  refine ⟨by norm_num, by norm_num, ?_⟩
  have hdec : decodeMuLawSample 128 = 32124 := by decide
  have hs : jsRound ((32124 : ℚ) * (999 / 1000)) = 32092 := by
    unfold jsRound
    exact Int.floor_eq_iff.mpr ⟨by norm_num, by norm_num⟩
  have hatt : attenuateAudio [128] (999 / 1000) = [128] := by
    unfold attenuateAudio decodeMuLaw encodeMuLaw
    simp only [List.map_cons, List.map_nil]
    rw [hdec]
    rw [show (((32124 : Int) : ℚ)) = (32124 : ℚ) from by push_cast; ring]
    rw [hs]
    decide
  rw [hatt]
  omega

/-- C8 amended: attenuateAudio preserves the buffer length for every factor,
and for every factor strictly between 0 and 1 the decoded peak amplitude
does not increase (strict decrease can fail, by quantization or for a
zero-peak buffer). -/
theorem claim_C8_attenuate_amended (buf : List Nat) (f : ℚ) :
    (attenuateAudio buf f).length = buf.length ∧
    (0 < f → f < 1 → decodedPeak (attenuateAudio buf f) ≤ decodedPeak buf) := by
  refine ⟨attenuateAudio_length buf f, ?_⟩
  intro h0 h1
  exact decodedPeak_attenuate_le buf f (le_of_lt h0) (le_of_lt h1)

theorem claim_C8_attenuate_amended_witness :
    decodedPeak (attenuateAudio [128] (1 / 2)) ≤ decodedPeak [128] :=
  (claim_C8_attenuate_amended [128] (1 / 2)).2 (by norm_num) (by norm_num)

/-- C9 counterexample: an unrecognized event does not parse to the type
"unknown": the event "dtmf" (the repository's own test case) passes through
with type "dtmf". -/
theorem claim_C9_unknown_counterexample : ¬ claimC9AsStated := by
  intro h
  have hdtmf := h ⟨some "dtmf", none, none, none⟩ (by decide)
  have heval : (parseTwilioMessage (some ⟨some "dtmf", none, none, none⟩)).msgType
      = "dtmf" := by decide
  rw [heval] at hdtmf
  exact absurd hdtmf (by decide)

/-- C9 amended: a valid-JSON message with an unrecognized event name parses,
without failing, to a record whose type is the event name itself — the
opaque string "unknown" is used only when the event field is absent or the
empty string — and the session's message handler ignores such records
without error, leaving the session state unchanged. -/
theorem claim_C9_unknown_amended (d : TwilioRaw)
    (h : d.event ∉ ([some "media", some "start", some "stop", some "connected"] :
      List (Option String))) :
    (parseTwilioMessage (some d)).msgType
      = (match d.event with
         | some e => if e = "" then "unknown" else e
         | none => "unknown") ∧
    (∀ s : WsSessionState, handleWsMessage s (parseTwilioMessage (some d)) = s) := by
  simp only [List.mem_cons, List.mem_singleton, List.not_mem_nil, or_false] at h
  push_neg at h
  obtain ⟨h1, h2, h3, h4⟩ := h
  constructor
  · simp [parseTwilioMessage, h1, h2, h3, h4, ParsedMsg.msgType]
  · intro s
    simp [parseTwilioMessage, h1, h2, h3, h4, handleWsMessage]

theorem claim_C9_unknown_amended_witness :
    (parseTwilioMessage (some ⟨some "dtmf", none, none, none⟩)).msgType
      = (match some "dtmf" with
         | some e => if e = "" then "unknown" else e
         | none => "unknown") ∧
    (∀ s : WsSessionState,
      handleWsMessage s (parseTwilioMessage (some ⟨some "dtmf", none, none, none⟩)) = s) :=
  claim_C9_unknown_amended ⟨some "dtmf", none, none, none⟩ (by decide)

/-- C10: a media WebSocket connection whose token differs from the
configured secret is closed immediately with policy code 1008 and reason
"Unauthorized", and no session state of any kind is created for it: the
handler outcome is never an accepted session (which is the only outcome
carrying a transcription stream, transcript buffer, or cooldown registry,
and the only one whose messages are processed). -/
theorem claim_C10_token_gate (token : Option String) (secret : String)
    (h : token ≠ some secret) :
    handleConnection token secret = .rejected 1008 "Unauthorized" ∧
    ∀ init, handleConnection token secret ≠ .accepted init := by
  constructor
  · simp [handleConnection, h]
  · intro init hcon
    simp [handleConnection, h] at hcon

theorem claim_C10_token_gate_witness :
    handleConnection none "s3cret" = .rejected 1008 "Unauthorized" ∧
    ∀ init, handleConnection none "s3cret" ≠ .accepted init :=
  claim_C10_token_gate none "s3cret" (by decide)

end FactWhisper
